import Mathlib

/-!
Verification of the pylops block-diagonal composite operator and the two leaf
operators (`SecondDerivative`, `FFT2D`) against their specification.

Vectors are modelled as `List ℚ` (exact arithmetic).  NumPy element types are
modelled as a four-point lattice (`float32/float64/complex64/complex128`) with
NumPy's promotion rule.  Stateful code (the multiprocessing pool owned by
`BlockDiag`) is modelled by explicit state passing.
-/

/-- NumPy dtype tag: `cplx` distinguishes complex from real, `dbl` distinguishes
64-bit from 32-bit precision.  `⟨false, false⟩ = float32`, `⟨false, true⟩ =
float64`, `⟨true, false⟩ = complex64`, `⟨true, true⟩ = complex128`. -/
structure DType where
  cplx : Bool
  dbl : Bool
deriving DecidableEq, Repr

/-- NumPy type promotion on the four-point lattice: the result is complex if
either input is, and double-precision if either input is. -/
def DType.promote (a b : DType) : DType := ⟨a.cplx || b.cplx, a.dbl || b.dbl⟩

/-- `np.result_type` over a list of dtypes (`float32` is the bottom element). -/
def promoteFold (l : List DType) : DType := l.foldl DType.promote ⟨false, false⟩

/-- Real inner product of two vectors (`np.dot`); trailing entries of the longer
vector are ignored, as both vectors always have equal length at call sites. -/
def dot (u v : List ℚ) : ℚ := (List.zipWith (· * ·) u v).sum

/-- The Operator Contract data: shape `(rows, cols)`, element type of the
outputs, and the two applications `matvec` (forward) / `rmatvec` (adjoint). -/
structure LinOp where
  rows : Nat
  cols : Nat
  dtype : DType
  matvec : List ℚ → List ℚ
  rmatvec : List ℚ → List ℚ

/-- Well-formedness half of the Operator Contract: `matvec` maps length-`cols`
input to length-`rows` output and `rmatvec` the converse. -/
def LinOp.WF (L : LinOp) : Prop :=
  (∀ z : List ℚ, z.length = L.cols → (L.matvec z).length = L.rows) ∧
  (∀ z : List ℚ, z.length = L.rows → (L.rmatvec z).length = L.cols)

/-- Adjoint-correctness invariant of the Operator Contract, in exact
arithmetic: `<L u, v> = <u, L* v>` for all compatible `u`, `v`. -/
def LinOp.AdjOK (L : LinOp) : Prop :=
  ∀ u v : List ℚ, u.length = L.cols → v.length = L.rows →
    dot (L.matvec u) v = dot u (L.rmatvec v)

/-- The `BlockDiag` composite after construction: the (already adapted)
sub-operator list and the composite dtype (`_get_dtype(ops)` when no override
is given, otherwise the override). -/
structure BlockDiag where
  ops : List LinOp
  dtype : DType

/-- `self.nops`: total number of rows, `sum of op.shape[0]`. -/
def BlockDiag.nops (B : BlockDiag) : Nat := (B.ops.map LinOp.rows).sum

/-- `self.mops`: total number of columns, `sum of op.shape[1]`. -/
def BlockDiag.mops (B : BlockDiag) : Nat := (B.ops.map LinOp.cols).sum

/-- `self.nnops = np.insert(np.cumsum(nops), 0, 0)`: the row offsets
`[0, r₀, r₀+r₁, …]`. -/
def BlockDiag.nnops (B : BlockDiag) : List Nat :=
  List.scanl (· + ·) 0 (B.ops.map LinOp.rows)

/-- `self.mmops = np.insert(np.cumsum(mops), 0, 0)`: the column offsets. -/
def BlockDiag.mmops (B : BlockDiag) : List Nat :=
  List.scanl (· + ·) 0 (B.ops.map LinOp.cols)

/-- `self.shape = (self.nops, self.mops)`. -/
def BlockDiag.shape (B : BlockDiag) : Nat × Nat := (B.nops, B.mops)

/-- NumPy slice assignment `y[a:a+len(seg)] = seg`, element by element
(`List.set` ignores out-of-range positions; inside the contract the slice
always lies within `y`, which is where the source is exercised). -/
def writeSlice : List ℚ → Nat → List ℚ → List ℚ
  | y, _, [] => y
  | y, a, s :: seg => writeSlice (y.set a s) (a + 1) seg

/-- The loop body of `BlockDiag._matvec_serial`: for each operator in order,
write `oper.matvec(x[co : co + cols])` (`.squeeze()` leaves 1-D values
unchanged) into `y[ro : ro + rows]`, where `ro`/`co` are the running row and
column offsets `nnops[i]`/`mmops[i]`. -/
def matvecSerialAux : List LinOp → List ℚ → List ℚ → Nat → Nat → List ℚ
  | [], _, y, _, _ => y
  | L :: rest, x, y, ro, co =>
      matvecSerialAux rest x
        (writeSlice y ro (L.matvec ((x.drop co).take L.cols)))
        (ro + L.rows) (co + L.cols)

/-- `BlockDiag._matvec_serial`: `y = zeros(self.nops)` followed by the slice
assignments; the `dtype` of `y` only tags the result (exact arithmetic). -/
def matvecSerial (B : BlockDiag) (x : List ℚ) : List ℚ :=
  matvecSerialAux B.ops x (List.replicate B.nops 0) 0 0

/-- The loop body of `BlockDiag._rmatvec_serial` (roles of rows/cols and
matvec/rmatvec swapped with respect to the forward loop). -/
def rmatvecSerialAux : List LinOp → List ℚ → List ℚ → Nat → Nat → List ℚ
  | [], _, y, _, _ => y
  | L :: rest, x, y, ro, co =>
      rmatvecSerialAux rest x
        (writeSlice y co (L.rmatvec ((x.drop ro).take L.rows)))
        (ro + L.rows) (co + L.cols)

/-- `BlockDiag._rmatvec_serial`: `y = zeros(self.mops)` followed by the slice
assignments. -/
def rmatvecSerial (B : BlockDiag) (x : List ℚ) : List ℚ :=
  rmatvecSerialAux B.ops x (List.replicate B.mops 0) 0 0

/-- `BlockDiag._matvec_multiproc`: `pool.starmap` applies each operator's
`_matvec` to its slice `x[mmops[i] : mmops[i+1]]` and gathers the results in
task order; `np.hstack` concatenates the segments.  Slicing from the running
offset (`drop`/`take`) is identical to slicing the full vector at
`mmops[i] : mmops[i+1]`. -/
def matvecMultiproc : List LinOp → List ℚ → List ℚ
  | [], _ => []
  | L :: rest, x => L.matvec (x.take L.cols) ++ matvecMultiproc rest (x.drop L.cols)

/-- `BlockDiag._rmatvec_multiproc`: the adjoint counterpart. -/
def rmatvecMultiproc : List LinOp → List ℚ → List ℚ
  | [], _ => []
  | L :: rest, x => L.rmatvec (x.take L.rows) ++ rmatvecMultiproc rest (x.drop L.rows)

/-- `BlockDiag._matvec` together with the element type of the produced array:
the serial path fills an array of the composite dtype, while the
multiprocessing path's `np.hstack` promotes the dtypes of the gathered
segments (each segment carries its operator's output dtype). -/
def matvecT (B : BlockDiag) (p : Nat) (x : List ℚ) : DType × List ℚ :=
  if p = 1 then (B.dtype, matvecSerial B x)
  else (promoteFold (B.ops.map LinOp.dtype), matvecMultiproc B.ops x)

/-- `BlockDiag._rmatvec` together with the element type of the produced
array. -/
def rmatvecT (B : BlockDiag) (p : Nat) (x : List ℚ) : DType × List ℚ :=
  if p = 1 then (B.dtype, rmatvecSerial B x)
  else (promoteFold (B.ops.map LinOp.dtype), rmatvecMultiproc B.ops x)

/-- State of one `multiprocessing.Pool`: the number of worker processes it was
created with and whether `close()` has been called on it. -/
structure Pool where
  nworkers : Nat
  closed : Bool
deriving DecidableEq, Repr

/-- The mutable pool-related state of a `BlockDiag` instance: the stored
parallelism degree `self._nproc` and `self.pool` (`none` models Python
`None`). -/
structure PoolState where
  nproc : Nat
  pool : Option Pool
deriving DecidableEq, Repr

/-- Pool construction at `__init__` (lines 103–107): `self.pool = None`, then
if `nproc > 1` a pool of `nproc` processes is created eagerly. -/
def initPoolState (nproc : Nat) : PoolState :=
  { nproc := nproc, pool := if nproc > 1 then some ⟨nproc, false⟩ else none }

/-- `self.pool.close()`: marks the referenced pool closed (the attribute keeps
pointing at the now-closed pool object). -/
def closePool (s : PoolState) : PoolState :=
  { s with pool := s.pool.map fun p => { p with closed := true } }

/-- The `nproc` setter, one Python statement per step, with `createOk`
modelling whether `mp.Pool(processes=nprocnew)` succeeds:
if the old degree is `> 1` the existing pool is closed; if the new degree is
`> 1` a fresh pool is created (on failure the exception propagates, leaving
the state reached so far — this is the returned state paired with `false`);
finally `self._nproc` is assigned.  The boolean result is `true` exactly when
the setter runs to completion. -/
def setNproc (s : PoolState) (nprocnew : Nat) (createOk : Bool) : PoolState × Bool :=
  let s1 := if s.nproc > 1 then closePool s else s
  if nprocnew > 1 then
    if createOk then ({ nproc := nprocnew, pool := some ⟨nprocnew, false⟩ }, true)
    else (s1, false)
  else ({ s1 with nproc := nprocnew }, true)

/-- A raw numeric matrix passed in place of an operator (rows of entries plus
its dtype). -/
structure RawMatrix where
  entries : List (List ℚ)
  dtype : DType

/-- Modelled from the spec: the dense-matrix leaf operator (`MatrixMult`, not
under `src/`) wrapping a raw matrix — forward application is the matrix-vector
product, adjoint application the transposed product, with the element type
inferred from the array. -/
def matrixMult (A : RawMatrix) : LinOp :=
  { rows := A.entries.length
    cols := (A.entries.headD []).length
    dtype := A.dtype
    matvec := fun x => A.entries.map fun r => dot r x
    rmatvec := fun y =>
      (List.range (A.entries.headD []).length).map fun j =>
        dot (A.entries.map fun r => r.getD j 0) y }

/-- An element of the list handed to the `BlockDiag` constructor: either an
operator already, or a raw matrix. -/
inductive OpElem where
  | op (L : LinOp) : OpElem
  | arr (A : RawMatrix) : OpElem

/-- The leaf-adaptation loop of `BlockDiag.__init__` (lines 94–96): every
element failing the `isinstance(oper, LinearOperator)` test is replaced, in
the caller's own list (`self.ops = ops` aliases it and `self.ops[iop] = …`
mutates it in place), by the dense-matrix wrapper.  The returned list is the
state of the caller's list after construction. -/
def adaptOps (ops : List OpElem) : List OpElem :=
  ops.map fun e =>
    match e with
    | OpElem.op L => OpElem.op L
    | OpElem.arr A => OpElem.op (matrixMult A)

/-- Modelled from the spec: the caller-facing `forward_apply` entry point (the
base `LinearOperator.matvec` wrapper lives outside `src/`) validates the input
length against the declared `cols` and fails with a shape-mismatch error
before dispatching to `_matvec`. -/
def forwardApply (B : BlockDiag) (p : Nat) (x : List ℚ) : Except String (List ℚ) :=
  if x.length = B.mops then
    Except.ok (if p = 1 then matvecSerial B x else matvecMultiproc B.ops x)
  else Except.error "dimension mismatch"

/-- Modelled from the spec: the caller-facing `adjoint_apply` entry point
validates the input length against the declared `rows` and fails with a
shape-mismatch error before dispatching to `_rmatvec`. -/
def adjointApply (B : BlockDiag) (p : Nat) (x : List ℚ) : Except String (List ℚ) :=
  if x.length = B.nops then
    Except.ok (if p = 1 then rmatvecSerial B x else rmatvecMultiproc B.ops x)
  else Except.error "dimension mismatch"

/-- `SecondDerivative._matvec` in the 1-D case, value of output sample `i`
(vectors of length `N` are functions restricted to indices `< N`):
`y = zeros(N)`; `y[1:-1] = (x[2:] - 2 x[1:-1] + x[0:-2]) / sampling²`; when
`edge`, `y[0]` and `y[-1]` are overwritten with the one-sided stencils.  The
edge branch indexes `x[1]`, `x[2]`, `x[-3]`, which the source requires to be
in range (`N ≥ 3`). -/
def secondDerivMatvec (N : Nat) (s : ℚ) (edge : Bool) (x : Nat → ℚ) : Nat → ℚ :=
  fun i =>
    if i < N then
      if edge = true ∧ i = 0 then (x 0 - 2 * x 1 + x 2) / s ^ 2
      else if edge = true ∧ i = N - 1 then
        (x (N - 3) - 2 * x (N - 2) + x (N - 1)) / s ^ 2
      else if 1 ≤ i ∧ i ≤ N - 2 then (x (i + 1) - 2 * x i + x (i - 1)) / s ^ 2
      else 0
    else 0

/-- `SecondDerivative._rmatvec` in the 1-D case, value of output sample `i`:
`y = zeros(N)`; `y[0:-2] += x[1:-1]/s²`; `y[1:-1] -= 2 x[1:-1]/s²`;
`y[2:] += x[1:-1]/s²`; when `edge`, the six scatter updates
`y[0] += x[0]/s²`, `y[1] -= 2 x[0]/s²`, `y[2] += x[0]/s²`,
`y[-3] += x[-1]/s²`, `y[-2] -= 2 x[-1]/s²`, `y[-1] += x[-1]/s²`.
Each slice update contributes to index `i` exactly when `i` lies in the
slice's range, with the source value read at the matching offset. -/
def secondDerivRmatvec (N : Nat) (s : ℚ) (edge : Bool) (x : Nat → ℚ) : Nat → ℚ :=
  fun i =>
    if i < N then
      (if i + 3 ≤ N then x (i + 1) / s ^ 2 else 0)
      - (if 1 ≤ i ∧ i + 2 ≤ N then 2 * x i / s ^ 2 else 0)
      + (if 2 ≤ i then x (i - 1) / s ^ 2 else 0)
      + (if edge = true then
          (if i = 0 then x 0 / s ^ 2 else 0)
          - (if i = 1 then 2 * x 0 / s ^ 2 else 0)
          + (if i = 2 then x 0 / s ^ 2 else 0)
          + (if i = N - 3 then x (N - 1) / s ^ 2 else 0)
          - (if i = N - 2 then 2 * x (N - 1) / s ^ 2 else 0)
          + (if i = N - 1 then x (N - 1) / s ^ 2 else 0)
        else 0)
    else 0

/-- Inner product of two length-`N` vectors given as index functions. -/
def dotN (N : Nat) (u v : Nat → ℚ) : ℚ := ∑ i in Finset.range N, u i * v i

/-- Number of frequency bins of the half-spectrum (real) transform along the
last FFT axis: `nfft // 2 + 1`. -/
def rfftBins (nfft : Nat) : Nat := nfft / 2 + 1

/-- The forward scaling step of `FFT2D._matvec` with `real=True` (lines
115–117), along the transformed half-spectrum axis (brought last by the
`swapaxes` pair): `y[..., 1 : 1 + (nfft - 1) // 2] *= √2`.  The multiplier is
kept abstract (`c`), standing for `np.sqrt(2)`; only the index set matters. -/
def fftScaleFwd (nfft : Nat) (c : ℚ) (y : Nat → ℚ) : Nat → ℚ :=
  fun k => if 1 ≤ k ∧ k < 1 + (nfft - 1) / 2 then c * y k else y k

/-- The adjoint scaling step of `FFT2D._rmatvec` with `real=True` (lines
128–131): `x[..., 1 : 1 + (nfft - 1) // 2] /= √2` on a copy of the input,
before the inverse transform. -/
def fftScaleAdj (nfft : Nat) (c : ℚ) (x : Nat → ℚ) : Nat → ℚ :=
  fun k => if 1 ≤ k ∧ k < 1 + (nfft - 1) / 2 then x k / c else x k

/-! ### Helper lemmas -/

/-- The head of a `scanl` is its seed. -/
lemma scanl_getD_zero (l : List Nat) (b : Nat) :
    (List.scanl (· + ·) b l).getD 0 0 = b := by
  cases l <;> simp [List.scanl]

/-- Recurrence of cumulative offsets: entry `i+1` of the scan is entry `i`
plus the `i`-th summand. -/
lemma scanl_getD_succ (l : List Nat) (b i : Nat) (hi : i < l.length) :
    (List.scanl (· + ·) b l).getD (i + 1) 0 =
      (List.scanl (· + ·) b l).getD i 0 + l.getD i 0 := by
  induction l generalizing b i with
  | nil => simp at hi
  | cons a l ih =>
    cases i with
    | zero => simp [List.scanl, scanl_getD_zero]
    | succ j =>
      simp only [List.scanl, List.getD_cons_succ]
      exact ih (b + a) j (by simpa using hi)

/-- Entry `i` of a mapped list, with a bound on `i`, as `getD`. -/
lemma getD_map_rows (ops : List LinOp) (f : LinOp → Nat) (i : Nat)
    (hi : i < ops.length) :
    (ops.map f).getD i 0 = f (ops.get ⟨i, hi⟩) := by
  rw [List.getD_eq_getElem _ _ (by simpa using hi)]
  simp

/-- C2: the composite's shape is the componentwise sum of the sub-operator
shapes, and the cumulative offset sequences start at `0` and satisfy
`offsets[i+1] = offsets[i] + (rows/cols of op i)`. -/
theorem blockdiag_shape_offsets (B : BlockDiag) :
    B.shape = ((B.ops.map LinOp.rows).sum, (B.ops.map LinOp.cols).sum) ∧
    B.nnops.getD 0 0 = 0 ∧ B.mmops.getD 0 0 = 0 ∧
    (∀ i (hi : i < B.ops.length),
      B.nnops.getD (i + 1) 0 = B.nnops.getD i 0 + (B.ops.get ⟨i, hi⟩).rows ∧
      B.mmops.getD (i + 1) 0 = B.mmops.getD i 0 + (B.ops.get ⟨i, hi⟩).cols) := by
  refine ⟨rfl, scanl_getD_zero _ _, scanl_getD_zero _ _, fun i hi => ⟨?_, ?_⟩⟩
  · rw [BlockDiag.nnops, scanl_getD_succ _ _ _ (by simpa using hi),
      getD_map_rows B.ops LinOp.rows i hi]
  · rw [BlockDiag.mmops, scanl_getD_succ _ _ _ (by simpa using hi),
      getD_map_rows B.ops LinOp.cols i hi]

/-- C2 witness: a concrete two-operator composite, instantiating the offset
recurrence at `i = 0`. -/
theorem blockdiag_shape_offsets_witness :
    (BlockDiag.mk
        [⟨3, 2, ⟨false, true⟩, fun _ => [], fun _ => []⟩,
         ⟨2, 3, ⟨false, true⟩, fun _ => [], fun _ => []⟩] ⟨false, true⟩).shape
      = (5, 5) ∧
    (BlockDiag.mk
        [⟨3, 2, ⟨false, true⟩, fun _ => [], fun _ => []⟩,
         ⟨2, 3, ⟨false, true⟩, fun _ => [], fun _ => []⟩] ⟨false, true⟩).nnops.getD 1 0
      = 3 := by
  have h := blockdiag_shape_offsets
    (BlockDiag.mk
      [⟨3, 2, ⟨false, true⟩, fun _ => [], fun _ => []⟩,
       ⟨2, 3, ⟨false, true⟩, fun _ => [], fun _ => []⟩] ⟨false, true⟩)
  refine ⟨h.1.trans (by norm_num), ?_⟩
  have h2 := (h.2.2.2 0 (by norm_num)).1
  rw [h2, h.2.1]
  norm_num

/-- C5 counterexample: starting from degree 2 with a live pool, a failed pool
creation in the setter leaves the object with its previous pool already
closed — not in the pre-change state, although the stored degree is
unchanged. -/
theorem setNproc_failure_counterexample :
    (setNproc ⟨2, some ⟨2, false⟩⟩ 3 false).2 = false ∧
    (setNproc ⟨2, some ⟨2, false⟩⟩ 3 false).1 ≠ ⟨2, some ⟨2, false⟩⟩ := by
  decide

/-- C5 (amended): the setter assigns the stored degree last, so a failed pool
creation always leaves the stored degree unchanged; the full pre-transition
state (pool included) is preserved only when the previous degree was ≤ 1 —
when the previous degree was > 1, the previous pool has already been closed
by the time creation is attempted. -/
theorem setNproc_failure_atomicity (s : PoolState) (n : Nat) (hn : 1 < n) :
    (setNproc s n false).2 = false ∧
    (setNproc s n false).1.nproc = s.nproc ∧
    (s.nproc ≤ 1 → (setNproc s n false).1 = s) ∧
    (1 < s.nproc → (setNproc s n false).1 = closePool s) := by
  by_cases h : 1 < s.nproc
  · simp [setNproc, h, hn, closePool, Nat.not_le.mpr h]
  · simp [setNproc, h, hn, Nat.not_lt.mp h]

/-- C5 witness: instantiation at degree-1 state (full state preserved). -/
theorem setNproc_failure_atomicity_witness :
    (setNproc ⟨1, none⟩ 4 false).2 = false ∧
    (setNproc ⟨1, none⟩ 4 false).1.nproc = (1 : Nat) ∧
    (setNproc ⟨1, none⟩ 4 false).1 = ⟨1, none⟩ := by
  have h := setNproc_failure_atomicity ⟨1, none⟩ 4 (by decide)
  exact ⟨h.1, h.2.1, h.2.2.1 (by decide)⟩

/-- C6 counterexample: constructing with degree 2 creates the pool eagerly —
a pool exists immediately after construction, refuting lazy creation. -/
theorem initPool_counterexample : (initPoolState 2).pool ≠ none := by
  decide

/-- C6 (amended): for every composite constructed with degree > 1 a live
worker pool of that size exists immediately after construction (eager
creation); an explicit degree change to 1 or smaller from a degree > 1 state
closes the existing pool. -/
theorem pool_eager_lifecycle (n : Nat) (hn : 1 < n) (s : PoolState) (p : Pool)
    (n' : Nat) (ok : Bool) (hs : 1 < s.nproc) (hp : s.pool = some p)
    (hn' : n' ≤ 1) :
    (initPoolState n).pool = some ⟨n, false⟩ ∧
    (setNproc s n' ok).1.pool = some { p with closed := true } ∧
    (setNproc s n' ok).1.nproc = n' := by
  refine ⟨by simp [initPoolState, hn], ?_, ?_⟩ <;>
    simp [setNproc, hs, Nat.not_lt.mpr hn', closePool, hp]

/-- C6 witness: construction at degree 3, then change to degree 1. -/
theorem pool_eager_lifecycle_witness :
    (initPoolState 3).pool = some ⟨3, false⟩ ∧
    (setNproc ⟨3, some ⟨3, false⟩⟩ 1 true).1.pool = some ⟨3, true⟩ ∧
    (setNproc ⟨3, some ⟨3, false⟩⟩ 1 true).1.nproc = 1 :=
  pool_eager_lifecycle 3 (by decide) ⟨3, some ⟨3, false⟩⟩ ⟨3, false⟩ 1 true
    (by decide) rfl (by decide)

/-- C8: on the half-spectrum axis (bins `0 … nfft/2`), the slice scaled by
the forward map (`[1, 1 + (nfft-1)//2)`) is exactly the set of non-DC,
non-Nyquist bins; the adjoint divides exactly the same bins; the DC bin and,
for even `nfft`, the Nyquist bin `nfft/2` are returned unscaled by both
directions. -/
theorem fft2d_real_scaling (nfft : Nat) (c : ℚ) (y : Nat → ℚ) (k : Nat)
    (h1 : 1 ≤ nfft) (hk : k < rfftBins nfft) :
    (k ≠ 0 ∧ (nfft % 2 = 0 → k ≠ nfft / 2) →
      fftScaleFwd nfft c y k = c * y k ∧ fftScaleAdj nfft c y k = y k / c) ∧
    (k = 0 ∨ (nfft % 2 = 0 ∧ k = nfft / 2) →
      fftScaleFwd nfft c y k = y k ∧ fftScaleAdj nfft c y k = y k) := by
  rw [rfftBins] at hk
  have key : (1 ≤ k ∧ k < 1 + (nfft - 1) / 2) ↔
      (k ≠ 0 ∧ (nfft % 2 = 0 → k ≠ nfft / 2)) := by omega
  constructor
  · intro h
    rw [fftScaleFwd, fftScaleAdj, if_pos (key.mpr h), if_pos (key.mpr h)]
    exact ⟨rfl, rfl⟩
  · intro h
    have hout : ¬(1 ≤ k ∧ k < 1 + (nfft - 1) / 2) := by
      rw [key]; rcases h with h | h <;> simp [h]
    rw [fftScaleFwd, fftScaleAdj, if_neg hout, if_neg hout]
    exact ⟨rfl, rfl⟩

/-- C8 witness: `nfft = 4`; bin 1 is scaled both ways, the Nyquist bin 2 is
untouched both ways. -/
theorem fft2d_real_scaling_witness :
    (fftScaleFwd 4 3 (fun _ => (1 : ℚ)) 1 = 3 * 1 ∧
      fftScaleAdj 4 3 (fun _ => (1 : ℚ)) 1 = 1 / 3) ∧
    (fftScaleFwd 4 3 (fun _ => (1 : ℚ)) 2 = 1 ∧
      fftScaleAdj 4 3 (fun _ => (1 : ℚ)) 2 = 1) :=
  ⟨(fft2d_real_scaling 4 3 (fun _ => 1) 1 (by decide) (by decide)).1
      (by exact ⟨by decide, fun _ => by decide⟩),
   (fft2d_real_scaling 4 3 (fun _ => 1) 2 (by decide) (by decide)).2
      (Or.inr ⟨rfl, rfl⟩)⟩

/-- Default element used with `List.getD` over constructor lists (an operator,
so that reading past the end never looks like a raw array). -/
def dummyElem : OpElem := OpElem.op (matrixMult ⟨[], ⟨false, false⟩⟩)

/-- C10: `BlockDiag.__init__` aliases the caller's list (`self.ops = ops`) and
rewrites raw-array entries in place, so after construction the caller's list
(`adaptOps ops`) holds the dense-matrix wrapper at every position that held a
raw array — the raw array itself is gone from the list. -/
theorem blockdiag_adapt_mutation (ops : List OpElem) (i : Nat) (A : RawMatrix)
    (h : ops.getD i dummyElem = OpElem.arr A) :
    (adaptOps ops).length = ops.length ∧
    (adaptOps ops).getD i dummyElem = OpElem.op (matrixMult A) ∧
    (adaptOps ops).getD i dummyElem ≠ OpElem.arr A := by
  refine ⟨by simp [adaptOps], ?_⟩
  induction ops generalizing i with
  | nil =>
    rw [List.getD] at h
    simp [dummyElem] at h
  | cons e rest ih =>
    cases i with
    | zero =>
      cases e with
      | op L => simp [dummyElem] at h
      | arr A2 =>
        have hA : A2 = A := by simpa using h
        subst hA
        exact ⟨by simp [adaptOps], fun hc => by simp [adaptOps] at hc⟩
    | succ j =>
      have h2 : rest.getD j dummyElem = OpElem.arr A := by simpa using h
      have := ih j h2
      simpa [adaptOps] using this

/-- C10 witness: a one-element list holding a raw 1×1 matrix. -/
theorem blockdiag_adapt_mutation_witness :
    (adaptOps [OpElem.arr ⟨[[1]], ⟨false, true⟩⟩]).length =
      [OpElem.arr (⟨[[1]], ⟨false, true⟩⟩ : RawMatrix)].length ∧
    (adaptOps [OpElem.arr ⟨[[1]], ⟨false, true⟩⟩]).getD 0 dummyElem =
      OpElem.op (matrixMult ⟨[[1]], ⟨false, true⟩⟩) ∧
    (adaptOps [OpElem.arr ⟨[[1]], ⟨false, true⟩⟩]).getD 0 dummyElem ≠
      OpElem.arr ⟨[[1]], ⟨false, true⟩⟩ :=
  blockdiag_adapt_mutation [OpElem.arr ⟨[[1]], ⟨false, true⟩⟩] 0
    ⟨[[1]], ⟨false, true⟩⟩ rfl

/-- A slice assignment whose target region is exactly the middle block of a
three-part decomposition replaces that block. -/
lemma writeSlice_exact : ∀ (seg y1 y2 y3 : List ℚ), y2.length = seg.length →
    writeSlice (y1 ++ y2 ++ y3) y1.length seg = y1 ++ seg ++ y3 := by
  intro seg
  induction seg with
  | nil =>
    intro y1 y2 y3 h2
    rw [List.length_eq_zero.mp h2, writeSlice]
  | cons s seg ih =>
    intro y1 y2 y3 h2
    match y2, h2 with
    | b :: y2, h2 =>
      rw [writeSlice]
      have hset : ((y1 ++ b :: y2 ++ y3).set y1.length s) = (y1 ++ [s]) ++ y2 ++ y3 := by
        rw [List.append_assoc y1 (b :: y2) y3,
          List.set_append_right _ _ (Nat.le_refl _)]
        simp
      rw [hset]
      have hl : y1.length + 1 = (y1 ++ [s]).length := by simp
      rw [hl, ih (y1 ++ [s]) y2 y3 (by simpa using h2)]
      simp

/-- The serial forward loop, started on a zero buffer decomposed as
`done ++ todo`, fills `todo` with the concatenation of the remaining
segments: the serial path computes exactly the multiprocessing path's
order-preserving concatenation. -/
lemma matvecSerialAux_eq : ∀ (ops : List LinOp) (x y1 y2 : List ℚ) (co : Nat),
    (∀ L ∈ ops, ∀ z : List ℚ, z.length = L.cols → (L.matvec z).length = L.rows) →
    y2.length = (ops.map LinOp.rows).sum →
    co + (ops.map LinOp.cols).sum ≤ x.length →
    matvecSerialAux ops x (y1 ++ y2) y1.length co =
      y1 ++ matvecMultiproc ops (x.drop co) := by
  intro ops
  induction ops with
  | nil =>
    intro x y1 y2 co _ h2 _
    rw [List.length_eq_zero.mp h2, matvecSerialAux, matvecMultiproc]
  | cons L rest ih =>
    intro x y1 y2 co hwf h2 hx
    simp only [List.map_cons, List.sum_cons, List.map] at h2 hx
    have hslice : ((x.drop co).take L.cols).length = L.cols := by
      simp; omega
    have hseg : (L.matvec ((x.drop co).take L.cols)).length = L.rows :=
      hwf L (List.mem_cons_self _ _) _ hslice
    rw [matvecSerialAux]
    have hsplit : y2 = y2.take L.rows ++ y2.drop L.rows :=
      (List.take_append_drop _ _).symm
    rw [hsplit, ← List.append_assoc,
      writeSlice_exact _ _ _ _ (by simp [hseg]; omega)]
    have hl : y1.length + L.rows =
        (y1 ++ L.matvec ((x.drop co).take L.cols)).length := by
      simp [hseg]
    rw [hl,
      ih x _ (y2.drop L.rows) (co + L.cols)
        (fun M hM => hwf M (List.mem_cons_of_mem _ hM)) (by simp; omega)
        (by omega)]
    rw [matvecMultiproc]
    simp [List.drop_drop]

/-- The serial adjoint loop equals the multiprocessing adjoint
concatenation. -/
lemma rmatvecSerialAux_eq : ∀ (ops : List LinOp) (x y1 y2 : List ℚ) (ro : Nat),
    (∀ L ∈ ops, ∀ z : List ℚ, z.length = L.rows → (L.rmatvec z).length = L.cols) →
    y2.length = (ops.map LinOp.cols).sum →
    ro + (ops.map LinOp.rows).sum ≤ x.length →
    rmatvecSerialAux ops x (y1 ++ y2) ro y1.length =
      y1 ++ rmatvecMultiproc ops (x.drop ro) := by
  intro ops
  induction ops with
  | nil =>
    intro x y1 y2 ro _ h2 _
    rw [List.length_eq_zero.mp h2, rmatvecSerialAux, rmatvecMultiproc]
  | cons L rest ih =>
    intro x y1 y2 ro hwf h2 hx
    simp only [List.map_cons, List.sum_cons, List.map] at h2 hx
    have hslice : ((x.drop ro).take L.rows).length = L.rows := by
      simp; omega
    have hseg : (L.rmatvec ((x.drop ro).take L.rows)).length = L.cols :=
      hwf L (List.mem_cons_self _ _) _ hslice
    rw [rmatvecSerialAux]
    have hsplit : y2 = y2.take L.cols ++ y2.drop L.cols :=
      (List.take_append_drop _ _).symm
    rw [hsplit, ← List.append_assoc,
      writeSlice_exact _ _ _ _ (by simp [hseg]; omega)]
    have hl : y1.length + L.cols =
        (y1 ++ L.rmatvec ((x.drop ro).take L.rows)).length := by
      simp [hseg]
    rw [hl,
      ih x _ (y2.drop L.cols) (ro + L.rows)
        (fun M hM => hwf M (List.mem_cons_of_mem _ hM)) (by simp; omega)
        (by omega)]
    rw [rmatvecMultiproc]
    simp [List.drop_drop]

/-- `_matvec_serial` agrees with the multiprocessing concatenation on every
contract-compliant composite and compliant input. -/
lemma matvecSerial_eq (B : BlockDiag) (x : List ℚ)
    (hwf : ∀ L ∈ B.ops, ∀ z : List ℚ, z.length = L.cols → (L.matvec z).length = L.rows)
    (hx : x.length = B.mops) :
    matvecSerial B x = matvecMultiproc B.ops x := by
  have h := matvecSerialAux_eq B.ops x [] (List.replicate B.nops 0) 0 hwf
    (by simp [BlockDiag.nops]) (by rw [hx]; simp [BlockDiag.mops])
  simpa [matvecSerial] using h

/-- `_rmatvec_serial` agrees with the multiprocessing concatenation. -/
lemma rmatvecSerial_eq (B : BlockDiag) (x : List ℚ)
    (hwf : ∀ L ∈ B.ops, ∀ z : List ℚ, z.length = L.rows → (L.rmatvec z).length = L.cols)
    (hx : x.length = B.nops) :
    rmatvecSerial B x = rmatvecMultiproc B.ops x := by
  have h := rmatvecSerialAux_eq B.ops x [] (List.replicate B.mops 0) 0 hwf
    (by simp [BlockDiag.mops]) (by rw [hx]; simp [BlockDiag.nops])
  simpa [rmatvecSerial] using h

/-- Inner product against a concatenation splits at the length of the first
part. -/
lemma dot_append (a : List ℚ) : ∀ (b v : List ℚ),
    dot (a ++ b) v = dot a (v.take a.length) + dot b (v.drop a.length) := by
  induction a with
  | nil => intro b v; simp [dot]
  | cons s a ih =>
    intro b v
    cases v with
    | nil => simp [dot]
    | cons w v =>
      have h1 : dot ((s :: a) ++ b) (w :: v) = s * w + dot (a ++ b) v := by
        simp [dot]
      have h2 : dot (s :: a) (w :: v.take a.length) =
          s * w + dot a (v.take a.length) := by
        simp [dot]
      simp only [List.length_cons, List.take_succ_cons, List.drop_succ_cons]
      rw [h1, h2, ih b v]
      ring

/-- The inner product is symmetric. -/
lemma dot_comm (u v : List ℚ) : dot u v = dot v u := by
  rw [dot, dot, List.zipWith_comm_of_comm _ mul_comm]

/-- Length of the forward multiprocessing concatenation under the contract. -/
lemma matvecMultiproc_length : ∀ (ops : List LinOp) (x : List ℚ),
    (∀ L ∈ ops, ∀ z : List ℚ, z.length = L.cols → (L.matvec z).length = L.rows) →
    (ops.map LinOp.cols).sum ≤ x.length →
    (matvecMultiproc ops x).length = (ops.map LinOp.rows).sum := by
  intro ops
  induction ops with
  | nil => intro x _ _; rfl
  | cons L rest ih =>
    intro x hwf hx
    simp only [List.map_cons, List.sum_cons] at hx ⊢
    rw [matvecMultiproc, List.length_append,
      hwf L (List.mem_cons_self _ _) _ (by simp; omega),
      ih _ (fun M hM => hwf M (List.mem_cons_of_mem _ hM)) (by simp; omega)]

/-- Length of the adjoint multiprocessing concatenation under the contract. -/
lemma rmatvecMultiproc_length : ∀ (ops : List LinOp) (x : List ℚ),
    (∀ L ∈ ops, ∀ z : List ℚ, z.length = L.rows → (L.rmatvec z).length = L.cols) →
    (ops.map LinOp.rows).sum ≤ x.length →
    (rmatvecMultiproc ops x).length = (ops.map LinOp.cols).sum := by
  intro ops
  induction ops with
  | nil => intro x _ _; rfl
  | cons L rest ih =>
    intro x hwf hx
    simp only [List.map_cons, List.sum_cons] at hx ⊢
    rw [rmatvecMultiproc, List.length_append,
      hwf L (List.mem_cons_self _ _) _ (by simp; omega),
      ih _ (fun M hM => hwf M (List.mem_cons_of_mem _ hM)) (by simp; omega)]

/-- Dot-test for the concatenated evaluation: if every sub-operator passes the
adjoint identity, the block-diagonal concatenation passes it. -/
lemma multiproc_dottest : ∀ (ops : List LinOp) (u v : List ℚ),
    (∀ L ∈ ops, L.WF) → (∀ L ∈ ops, L.AdjOK) →
    u.length = (ops.map LinOp.cols).sum → v.length = (ops.map LinOp.rows).sum →
    dot (matvecMultiproc ops u) v = dot u (rmatvecMultiproc ops v) := by
  intro ops
  induction ops with
  | nil => intro u v _ _ _ _; simp [matvecMultiproc, rmatvecMultiproc, dot]
  | cons L rest ih =>
    intro u v hwf hadj hu hv
    simp only [List.map_cons, List.sum_cons] at hu hv
    have hu1 : (u.take L.cols).length = L.cols := by simp; omega
    have hv1 : (v.take L.rows).length = L.rows := by simp; omega
    have hseg : (L.matvec (u.take L.cols)).length = L.rows :=
      (hwf L (List.mem_cons_self _ _)).1 _ hu1
    have hseg' : (L.rmatvec (v.take L.rows)).length = L.cols :=
      (hwf L (List.mem_cons_self _ _)).2 _ hv1
    rw [matvecMultiproc, rmatvecMultiproc, dot_append, hseg,
      dot_comm u _, dot_append, hseg']
    rw [hadj L (List.mem_cons_self _ _) _ _ hu1 hv1,
      ih _ _ (fun M hM => hwf M (List.mem_cons_of_mem _ hM))
        (fun M hM => hadj M (List.mem_cons_of_mem _ hM))
        (by simp; omega) (by simp; omega),
      dot_comm (u.take L.cols) _, dot_comm (u.drop L.cols) _]

/-- C1: a composite built from sub-operators that each satisfy the adjoint
identity satisfies it itself: for all `u` of length `cols` and `v` of length
`rows`, `<forward(u), v> = <u, adjoint(v)>` in exact arithmetic. -/
theorem blockdiag_dottest (B : BlockDiag) (u v : List ℚ)
    (hwf : ∀ L ∈ B.ops, L.WF) (hadj : ∀ L ∈ B.ops, L.AdjOK)
    (hu : u.length = B.mops) (hv : v.length = B.nops) :
    dot (matvecSerial B u) v = dot u (rmatvecSerial B v) := by
  rw [matvecSerial_eq B u (fun L hL => (hwf L hL).1) hu,
    rmatvecSerial_eq B v (fun L hL => (hwf L hL).2) hv]
  exact multiproc_dottest B.ops u v hwf hadj hu hv

/-- C1 witness: a singleton composite of the 1×1 identity operator with
`u = [3]`, `v = [5]`. -/
theorem blockdiag_dottest_witness :
    dot (matvecSerial
        (BlockDiag.mk [⟨1, 1, ⟨false, true⟩, id, id⟩] ⟨false, true⟩) [3]) [5] =
      dot [3] (rmatvecSerial
        (BlockDiag.mk [⟨1, 1, ⟨false, true⟩, id, id⟩] ⟨false, true⟩) [5]) :=
  blockdiag_dottest (BlockDiag.mk [⟨1, 1, ⟨false, true⟩, id, id⟩] ⟨false, true⟩)
    [3] [5]
    (by
      intro L hL
      rw [List.mem_singleton] at hL
      subst hL
      exact ⟨fun z h => h, fun z h => h⟩)
    (by
      intro L hL
      rw [List.mem_singleton] at hL
      subst hL
      intro u v _ _
      rfl)
    rfl rfl

/-- `scanl` entry `i` is the seed plus the sum of the first `i` summands. -/
lemma scanl_getD_take (l : List Nat) : ∀ (b i : Nat), i ≤ l.length →
    (List.scanl (· + ·) b l).getD i 0 = b + (l.take i).sum := by
  induction l with
  | nil =>
    intro b i hi
    have h0 : i = 0 := Nat.le_zero.mp (by simpa using hi)
    subst h0
    simp [List.scanl]
  | cons a l ih =>
    intro b i hi
    cases i with
    | zero => simp [scanl_getD_zero]
    | succ j =>
      simp only [List.scanl, List.getD_cons_succ, List.take_succ_cons,
        List.sum_cons]
      rw [ih (b + a) j (by simpa using hi)]
      omega

/-- Slicing the multiprocessing concatenation at the cumulative row offsets
recovers each operator's own forward output on its input slice. -/
lemma multiproc_segment : ∀ (ops : List LinOp) (x : List ℚ) (i : Nat)
    (hi : i < ops.length),
    (∀ L ∈ ops, ∀ z : List ℚ, z.length = L.cols → (L.matvec z).length = L.rows) →
    (ops.map LinOp.cols).sum ≤ x.length →
    ((matvecMultiproc ops x).drop (((ops.map LinOp.rows).take i).sum)).take
        ((ops.get ⟨i, hi⟩).rows)
      = (ops.get ⟨i, hi⟩).matvec
          ((x.drop (((ops.map LinOp.cols).take i).sum)).take
            ((ops.get ⟨i, hi⟩).cols)) := by
  intro ops
  induction ops with
  | nil => intro x i hi; simp at hi
  | cons L rest ih =>
    intro x i hi hwf hx
    simp only [List.map_cons, List.sum_cons] at hx
    have hseg : (L.matvec (x.take L.cols)).length = L.rows :=
      hwf L (List.mem_cons_self _ _) _ (by simp; omega)
    cases i with
    | zero =>
      have hg : (L :: rest).get ⟨0, hi⟩ = L := rfl
      simp only [List.map_cons, List.take_zero, List.sum_nil, List.drop_zero]
      rw [hg, matvecMultiproc, List.take_left' hseg]
    | succ j =>
      have hg : (L :: rest).get ⟨j + 1, hi⟩ = rest.get ⟨j, by simpa using hi⟩ := rfl
      simp only [List.map_cons, List.take_succ_cons, List.sum_cons]
      rw [hg, matvecMultiproc, ← List.drop_drop, List.drop_left' hseg,
      ← List.drop_drop]
      exact ih (x.drop L.cols) j (by simpa using hi)
        (fun M hM => hwf M (List.mem_cons_of_mem _ hM)) (by simp; omega)

/-- C3: for every contract-compliant composite and input of length
`col_offsets[N]`, the slice of the serial forward output between
`row_offsets[i]` and `row_offsets[i+1]` equals sub-operator `i`'s own forward
output on `x[col_offsets[i] : col_offsets[i+1]]`, and the full output is the
concatenation of the `N` segments in sub-operator order. -/
theorem blockdiag_partition (B : BlockDiag) (x : List ℚ)
    (hwf : ∀ L ∈ B.ops, L.WF) (hx : x.length = B.mops) :
    matvecSerial B x = matvecMultiproc B.ops x ∧
    ∀ i (hi : i < B.ops.length),
      ((matvecSerial B x).drop (B.nnops.getD i 0)).take
          (B.nnops.getD (i + 1) 0 - B.nnops.getD i 0)
        = (B.ops.get ⟨i, hi⟩).matvec
            ((x.drop (B.mmops.getD i 0)).take
              (B.mmops.getD (i + 1) 0 - B.mmops.getD i 0)) := by
  have hser := matvecSerial_eq B x (fun L hL => (hwf L hL).1) hx
  refine ⟨hser, fun i hi => ?_⟩
  have hr : B.nnops.getD (i + 1) 0 - B.nnops.getD i 0 = (B.ops.get ⟨i, hi⟩).rows := by
    rw [BlockDiag.nnops, scanl_getD_succ _ _ _ (by simpa using hi),
      getD_map_rows B.ops LinOp.rows i hi]
    omega
  have hc : B.mmops.getD (i + 1) 0 - B.mmops.getD i 0 = (B.ops.get ⟨i, hi⟩).cols := by
    rw [BlockDiag.mmops, scanl_getD_succ _ _ _ (by simpa using hi),
      getD_map_rows B.ops LinOp.cols i hi]
    omega
  have hnn : B.nnops.getD i 0 = ((B.ops.map LinOp.rows).take i).sum := by
    rw [BlockDiag.nnops, scanl_getD_take _ _ _ (by simp; omega)]
    omega
  have hmm : B.mmops.getD i 0 = ((B.ops.map LinOp.cols).take i).sum := by
    rw [BlockDiag.mmops, scanl_getD_take _ _ _ (by simp; omega)]
    omega
  rw [hser, hr, hc, hnn, hmm]
  exact multiproc_segment B.ops x i hi (fun L hL => (hwf L hL).1)
    (by simp only [BlockDiag.mops] at hx; omega)

/-- C3 witness: a two-operator composite of 1×1 identities on `[3, 4]`. -/
theorem blockdiag_partition_witness :
    matvecSerial
        (BlockDiag.mk [⟨1, 1, ⟨false, true⟩, id, id⟩,
          ⟨1, 1, ⟨false, true⟩, id, id⟩] ⟨false, true⟩) [3, 4]
      = matvecMultiproc [⟨1, 1, ⟨false, true⟩, id, id⟩,
          ⟨1, 1, ⟨false, true⟩, id, id⟩] [3, 4] :=
  (blockdiag_partition
    (BlockDiag.mk [⟨1, 1, ⟨false, true⟩, id, id⟩,
      ⟨1, 1, ⟨false, true⟩, id, id⟩] ⟨false, true⟩) [3, 4]
    (by
      intro L hL
      simp only [List.mem_cons, List.not_mem_nil, or_false] at hL
      rcases hL with rfl | rfl <;> exact ⟨fun z h => h, fun z h => h⟩)
    rfl).1

/-- C4 counterexample: a composite whose dtype override (`float32`) differs
from the promoted segment dtype (`float64`): the serial result is tagged
`float32` while `np.hstack` in the parallel path yields `float64` — the two
paths do not return an identical element type. -/
theorem blockdiag_parallel_counterexample :
    matvecT (BlockDiag.mk [⟨1, 1, ⟨false, true⟩, id, id⟩] ⟨false, false⟩) 1 [3]
      ≠ matvecT (BlockDiag.mk [⟨1, 1, ⟨false, true⟩, id, id⟩] ⟨false, false⟩) 2 [3] := by
  intro h
  have hfst := congrArg Prod.fst h
  simp [matvecT, promoteFold, DType.promote] at hfst

/-- C4 (amended): when the composite dtype equals the promotion of the
sub-operator dtypes (as when no dtype override is given), the serial path and
the worker-pool path return identical output — values and element type — for
any parallelism degree > 1, in both forward and adjoint direction. -/
theorem blockdiag_parallel_consistency (B : BlockDiag) (p : Nat) (x y : List ℚ)
    (hp : 1 < p) (hdt : promoteFold (B.ops.map LinOp.dtype) = B.dtype)
    (hwf : ∀ L ∈ B.ops, L.WF) (hx : x.length = B.mops) (hy : y.length = B.nops) :
    matvecT B 1 x = matvecT B p x ∧ rmatvecT B 1 y = rmatvecT B p y := by
  have hp1 : p ≠ 1 := by omega
  constructor
  · rw [matvecT, matvecT, if_pos rfl, if_neg hp1, hdt,
      matvecSerial_eq B x (fun L hL => (hwf L hL).1) hx]
  · rw [rmatvecT, rmatvecT, if_pos rfl, if_neg hp1, hdt,
      rmatvecSerial_eq B y (fun L hL => (hwf L hL).2) hy]

/-- C4 witness: a singleton `float64` composite without dtype override, at
degree 2. -/
theorem blockdiag_parallel_consistency_witness :
    matvecT (BlockDiag.mk [⟨1, 1, ⟨false, true⟩, id, id⟩] ⟨false, true⟩) 1 [3]
      = matvecT (BlockDiag.mk [⟨1, 1, ⟨false, true⟩, id, id⟩] ⟨false, true⟩) 2 [3] ∧
    rmatvecT (BlockDiag.mk [⟨1, 1, ⟨false, true⟩, id, id⟩] ⟨false, true⟩) 1 [5]
      = rmatvecT (BlockDiag.mk [⟨1, 1, ⟨false, true⟩, id, id⟩] ⟨false, true⟩) 2 [5] :=
  blockdiag_parallel_consistency
    (BlockDiag.mk [⟨1, 1, ⟨false, true⟩, id, id⟩] ⟨false, true⟩) 2 [3] [5]
    (by decide) (by decide)
    (by
      intro L hL
      rw [List.mem_singleton] at hL
      subst hL
      exact ⟨fun z h => h, fun z h => h⟩)
    rfl rfl

/-- A slice assignment never changes the buffer length. -/
lemma writeSlice_length : ∀ (seg y : List ℚ) (a : Nat),
    (writeSlice y a seg).length = y.length := by
  intro seg
  induction seg with
  | nil => intro y a; rfl
  | cons s seg ih => intro y a; rw [writeSlice, ih]; simp

/-- The serial forward loop never changes the output-buffer length. -/
lemma matvecSerialAux_length : ∀ (ops : List LinOp) (x y : List ℚ) (ro co : Nat),
    (matvecSerialAux ops x y ro co).length = y.length := by
  intro ops
  induction ops with
  | nil => intro x y ro co; rfl
  | cons L rest ih => intro x y ro co; rw [matvecSerialAux, ih, writeSlice_length]

/-- The serial adjoint loop never changes the output-buffer length. -/
lemma rmatvecSerialAux_length : ∀ (ops : List LinOp) (x y : List ℚ) (ro co : Nat),
    (rmatvecSerialAux ops x y ro co).length = y.length := by
  intro ops
  induction ops with
  | nil => intro x y ro co; rfl
  | cons L rest ih => intro x y ro co; rw [rmatvecSerialAux, ih, writeSlice_length]

/-- The serial forward output always has length `nops` (the buffer is
allocated at full size up front). -/
lemma matvecSerial_length (B : BlockDiag) (x : List ℚ) :
    (matvecSerial B x).length = B.nops := by
  rw [matvecSerial, matvecSerialAux_length]
  simp

/-- The serial adjoint output always has length `mops`. -/
lemma rmatvecSerial_length (B : BlockDiag) (x : List ℚ) :
    (rmatvecSerial B x).length = B.mops := by
  rw [rmatvecSerial, rmatvecSerialAux_length]
  simp

/-- C9: an input of the wrong length is rejected with a shape-mismatch error
in both directions (no truncation or padding), and on a correct-length input
the call returns a fully-sized output vector (`rows` for forward, `cols` for
adjoint) — never a partially-filled one. -/
theorem blockdiag_shape_mismatch (B : BlockDiag) (p : Nat) (x y : List ℚ)
    (hx : x.length ≠ B.mops) (hy : y.length ≠ B.nops) :
    forwardApply B p x = Except.error "dimension mismatch" ∧
    adjointApply B p y = Except.error "dimension mismatch" ∧
    (∀ x' : List ℚ, x'.length = B.mops → (∀ L ∈ B.ops, L.WF) →
      ∃ y', forwardApply B p x' = Except.ok y' ∧ y'.length = B.nops) ∧
    (∀ y' : List ℚ, y'.length = B.nops → (∀ L ∈ B.ops, L.WF) →
      ∃ x', adjointApply B p y' = Except.ok x' ∧ x'.length = B.mops) := by
  refine ⟨by rw [forwardApply, if_neg hx], by rw [adjointApply, if_neg hy],
    ?_, ?_⟩
  · intro x' hx' hwf
    refine ⟨_, by rw [forwardApply, if_pos hx'], ?_⟩
    by_cases hp : p = 1
    · rw [if_pos hp, matvecSerial_length]
    · rw [if_neg hp]
      exact matvecMultiproc_length B.ops x' (fun L hL => (hwf L hL).1)
        (by simp only [BlockDiag.mops] at hx'; omega)
  · intro y' hy' hwf
    refine ⟨_, by rw [adjointApply, if_pos hy'], ?_⟩
    by_cases hp : p = 1
    · rw [if_pos hp, rmatvecSerial_length]
    · rw [if_neg hp]
      exact rmatvecMultiproc_length B.ops y' (fun L hL => (hwf L hL).2)
        (by simp only [BlockDiag.nops] at hy'; omega)

/-- C9 witness: a 1×1 composite rejecting a length-2 forward input and a
length-0 adjoint input. -/
theorem blockdiag_shape_mismatch_witness :
    forwardApply (BlockDiag.mk [⟨1, 1, ⟨false, true⟩, id, id⟩] ⟨false, true⟩)
        1 [1, 2] = Except.error "dimension mismatch" ∧
    adjointApply (BlockDiag.mk [⟨1, 1, ⟨false, true⟩, id, id⟩] ⟨false, true⟩)
        1 [] = Except.error "dimension mismatch" :=
  ⟨(blockdiag_shape_mismatch
      (BlockDiag.mk [⟨1, 1, ⟨false, true⟩, id, id⟩] ⟨false, true⟩) 1 [1, 2] []
      (by decide) (by decide)).1,
   (blockdiag_shape_mismatch
      (BlockDiag.mk [⟨1, 1, ⟨false, true⟩, id, id⟩] ⟨false, true⟩) 1 [1, 2] []
      (by decide) (by decide)).2.1⟩

/-- Forward stencil value at the left edge (`edge=True`). -/
lemma secondDerivMatvec_zero (m : Nat) (s : ℚ) (x : Nat → ℚ) :
    secondDerivMatvec (m + 3) s true x 0 = (x 0 - 2 * x 1 + x 2) / s ^ 2 := by
  unfold secondDerivMatvec
  rw [if_pos (show 0 < m + 3 by omega),
    if_pos (show true = true ∧ 0 = 0 from ⟨rfl, rfl⟩)]

/-- Forward stencil value at the right edge (`edge=True`). -/
lemma secondDerivMatvec_top (m : Nat) (s : ℚ) (x : Nat → ℚ) :
    secondDerivMatvec (m + 3) s true x (m + 2) =
      (x m - 2 * x (m + 1) + x (m + 2)) / s ^ 2 := by
  unfold secondDerivMatvec
  rw [if_pos (show m + 2 < m + 3 by omega),
    if_neg (fun h => absurd h.2 (by omega)),
    if_pos (show true = true ∧ m + 2 = m + 3 - 1 from ⟨rfl, by omega⟩),
    show m + 3 - 3 = m from by omega, show m + 3 - 2 = m + 1 from by omega,
    show m + 3 - 1 = m + 2 from by omega]

/-- Forward stencil value at interior points. -/
lemma secondDerivMatvec_interior (m : Nat) (s : ℚ) (x : Nat → ℚ) (i : Nat)
    (hi : i < m + 1) :
    secondDerivMatvec (m + 3) s true x (i + 1) =
      (x (i + 2) - 2 * x (i + 1) + x i) / s ^ 2 := by
  unfold secondDerivMatvec
  rw [if_pos (show i + 1 < m + 3 by omega),
    if_neg (fun h => absurd h.2 (by omega)),
    if_neg (fun h => absurd h.2 (by omega)),
    if_pos (show 1 ≤ i + 1 ∧ i + 1 ≤ m + 3 - 2 from ⟨by omega, by omega⟩),
    show i + 1 + 1 = i + 2 from by omega, show i + 1 - 1 = i from by omega]

/-- Pointwise expansion of `x i * rmatvec(v) i` into a signed sum of
conditionals, for indices inside the array. -/
lemma secondDerivRmatvec_expand (m : Nat) (s : ℚ) (v x : Nat → ℚ) (i : Nat)
    (hi : i < m + 3) :
    x i * secondDerivRmatvec (m + 3) s true v i =
      (if i + 3 ≤ m + 3 then x i * (v (i + 1) / s ^ 2) else 0)
      - (if 1 ≤ i ∧ i + 2 ≤ m + 3 then x i * (2 * v i / s ^ 2) else 0)
      + (if 2 ≤ i then x i * (v (i - 1) / s ^ 2) else 0)
      + ((if i = 0 then x i * (v 0 / s ^ 2) else 0)
        - (if i = 1 then x i * (2 * v 0 / s ^ 2) else 0)
        + (if i = 2 then x i * (v 0 / s ^ 2) else 0)
        + (if i = m then x i * (v (m + 2) / s ^ 2) else 0)
        - (if i = m + 1 then x i * (2 * v (m + 2) / s ^ 2) else 0)
        + (if i = m + 2 then x i * (v (m + 2) / s ^ 2) else 0)) := by
  unfold secondDerivRmatvec
  rw [if_pos hi, if_pos (show (true : Bool) = true from rfl),
    show m + 3 - 3 = m from by omega, show m + 3 - 2 = m + 1 from by omega,
    show m + 3 - 1 = m + 2 from by omega]
  simp only [mul_add, mul_sub, mul_ite, mul_zero]

/-- The forward-scaled slice `[0, N-3]` of the adjoint scatter, as a filter. -/
lemma secondDeriv_filter_one (m : Nat) :
    (Finset.range (m + 3)).filter (fun i => i + 3 ≤ m + 3) =
      Finset.range (m + 1) := by
  ext i
  simp only [Finset.mem_filter, Finset.mem_range]
  omega

/-- The interior slice `[1, N-2]` of the adjoint scatter, as a filter. -/
lemma secondDeriv_filter_two (m : Nat) :
    (Finset.range (m + 3)).filter (fun i => 1 ≤ i ∧ i + 2 ≤ m + 3) =
      Finset.Ico 1 (m + 2) := by
  ext i
  simp only [Finset.mem_filter, Finset.mem_range, Finset.mem_Ico]
  omega

/-- The trailing slice `[2, N-1]` of the adjoint scatter, as a filter. -/
lemma secondDeriv_filter_three (m : Nat) :
    (Finset.range (m + 3)).filter (fun i => 2 ≤ i) = Finset.Ico 2 (m + 3) := by
  ext i
  simp only [Finset.mem_filter, Finset.mem_range, Finset.mem_Ico]
  omega

/-- The exact dot-test identity for the edge-enabled second derivative, with
the length written as `m + 3`. -/
lemma secondDeriv_dottest_aux (m : Nat) (s : ℚ) (x v : Nat → ℚ) :
    dotN (m + 3) (secondDerivMatvec (m + 3) s true x) v =
      dotN (m + 3) x (secondDerivRmatvec (m + 3) s true v) := by
  rw [dotN, dotN]
  have hL : ∑ i in Finset.range (m + 3),
      secondDerivMatvec (m + 3) s true x i * v i =
      (∑ i in Finset.range (m + 1),
        (x (i + 2) * (v (i + 1) / s ^ 2) - x (i + 1) * (2 * v (i + 1) / s ^ 2)
          + x i * (v (i + 1) / s ^ 2)))
      + (x 0 - 2 * x 1 + x 2) / s ^ 2 * v 0
      + (x m - 2 * x (m + 1) + x (m + 2)) / s ^ 2 * v (m + 2) := by
    rw [Finset.sum_range_succ, Finset.sum_range_succ',
      secondDerivMatvec_zero m s x, secondDerivMatvec_top m s x]
    have hint : ∑ i in Finset.range (m + 1),
        secondDerivMatvec (m + 3) s true x (i + 1) * v (i + 1) =
        ∑ i in Finset.range (m + 1),
          (x (i + 2) * (v (i + 1) / s ^ 2) - x (i + 1) * (2 * v (i + 1) / s ^ 2)
            + x i * (v (i + 1) / s ^ 2)) :=
      Finset.sum_congr rfl fun i hi => by
        rw [secondDerivMatvec_interior m s x i (Finset.mem_range.mp hi)]
        ring
    rw [hint]
  have hR : ∑ i in Finset.range (m + 3),
      x i * secondDerivRmatvec (m + 3) s true v i =
      (∑ i in Finset.range (m + 1), x i * (v (i + 1) / s ^ 2))
      - (∑ i in Finset.range (m + 1), x (i + 1) * (2 * v (i + 1) / s ^ 2))
      + (∑ i in Finset.range (m + 1), x (i + 2) * (v (i + 1) / s ^ 2))
      + (x 0 * (v 0 / s ^ 2) - x 1 * (2 * v 0 / s ^ 2) + x 2 * (v 0 / s ^ 2)
        + x m * (v (m + 2) / s ^ 2) - x (m + 1) * (2 * v (m + 2) / s ^ 2)
        + x (m + 2) * (v (m + 2) / s ^ 2)) := by
    rw [Finset.sum_congr rfl
      (fun i hi => secondDerivRmatvec_expand m s v x i (Finset.mem_range.mp hi))]
    simp only [Finset.sum_add_distrib, Finset.sum_sub_distrib]
    simp only [Finset.sum_ite_eq', Finset.mem_range]
    rw [if_pos (show 0 < m + 3 by omega), if_pos (show 1 < m + 3 by omega),
      if_pos (show 2 < m + 3 by omega), if_pos (show m < m + 3 by omega),
      if_pos (show m + 1 < m + 3 by omega), if_pos (show m + 2 < m + 3 by omega)]
    rw [← Finset.sum_filter, ← Finset.sum_filter, ← Finset.sum_filter,
      secondDeriv_filter_one, secondDeriv_filter_two, secondDeriv_filter_three,
      Finset.sum_Ico_eq_sum_range, Finset.sum_Ico_eq_sum_range,
      show m + 2 - 1 = m + 1 from by omega, show m + 3 - 2 = m + 1 from by omega]
    have e2 : ∑ i in Finset.range (m + 1), x (1 + i) * (2 * v (1 + i) / s ^ 2) =
        ∑ i in Finset.range (m + 1), x (i + 1) * (2 * v (i + 1) / s ^ 2) :=
      Finset.sum_congr rfl fun i _ => by rw [Nat.add_comm 1 i]
    have e3 : ∑ i in Finset.range (m + 1), x (2 + i) * (v (2 + i - 1) / s ^ 2) =
        ∑ i in Finset.range (m + 1), x (i + 2) * (v (i + 1) / s ^ 2) :=
      Finset.sum_congr rfl fun i _ => by
        rw [Nat.add_comm 2 i, show i + 2 - 1 = i + 1 from by omega]
    rw [e2, e3]
  rw [hL, hR]
  rw [Finset.sum_add_distrib, Finset.sum_sub_distrib]
  ring

/-- C7: for the 1-D second derivative with `edge=True` and `N ≥ 3`, the
forward map computes the centred stencil at interior points and the stated
one-sided stencils at the two edges, and the adjoint scatter mirrors the
forward map exactly: `<matvec(x), v> = <x, rmatvec(v)>` holds in exact
arithmetic for all `x`, `v` of length `N`. -/
theorem secondDerivative_edge_adjoint (N : Nat) (hN : 3 ≤ N) (s : ℚ)
    (x v : Nat → ℚ) :
    secondDerivMatvec N s true x 0 = (x 0 - 2 * x 1 + x 2) / s ^ 2 ∧
    secondDerivMatvec N s true x (N - 1) =
      (x (N - 3) - 2 * x (N - 2) + x (N - 1)) / s ^ 2 ∧
    (∀ i, 1 ≤ i → i ≤ N - 2 →
      secondDerivMatvec N s true x i = (x (i + 1) - 2 * x i + x (i - 1)) / s ^ 2) ∧
    dotN N (secondDerivMatvec N s true x) v =
      dotN N x (secondDerivRmatvec N s true v) := by
  obtain ⟨m, rfl⟩ : ∃ m, N = m + 3 := ⟨N - 3, by omega⟩
  refine ⟨secondDerivMatvec_zero m s x, ?_, ?_, secondDeriv_dottest_aux m s x v⟩
  · rw [show m + 3 - 1 = m + 2 from by omega, show m + 3 - 3 = m from by omega,
      show m + 3 - 2 = m + 1 from by omega]
    exact secondDerivMatvec_top m s x
  · intro i h1 h2
    obtain ⟨j, rfl⟩ : ∃ j, i = j + 1 := ⟨i - 1, by omega⟩
    rw [secondDerivMatvec_interior m s x j (by omega),
      show j + 1 + 1 = j + 2 from by omega, show j + 1 - 1 = j from by omega]

/-- C7 witness: `N = 3`, `sampling = 1`, `x i = i`, `v i = i`. -/
theorem secondDerivative_edge_adjoint_witness :
    dotN 3 (secondDerivMatvec 3 1 true (fun i => (i : ℚ))) (fun i => (i : ℚ)) =
      dotN 3 (fun i => (i : ℚ)) (secondDerivRmatvec 3 1 true (fun i => (i : ℚ))) :=
  (secondDerivative_edge_adjoint 3 (by omega) 1 (fun i => (i : ℚ))
    (fun i => (i : ℚ))).2.2.2
